import Mathlib

/-!
# WriteRightAI — verification of the job pipeline and paragraph chunker

A shallow embedding of the core of the WriteRightAI document-compliance
service (`agents.py`, `main.py`): the paragraph-chunking algorithm
`paragraph_chunk_split`, the workflow nodes of the Check and Correct
stages, the background stage executors, and the HTTP trigger/status
boundary.  Python strings are modelled as `List Char`; Python's
`str.strip`, `str.split("\n\n")` and `"\n\n".join` are modelled by
`strip`, `splitParas` and `joinSep` below; code that can raise is
modelled in `Except` with the exception message as the error value; the
external text service, document loaders and document writer are
abstracted as function parameters.
-/

/-- Python strings, modelled as lists of characters. -/
abbrev Str := List Char

/-- The characters removed by Python's `str.strip()` (ASCII whitespace). -/
def isPySpace (c : Char) : Bool :=
  c = ' ' || c = '\t' || c = '\n' || c = '\r' || c = '\x0b' || c = '\x0c'

/-- Python `str.lstrip()`: drop leading whitespace. -/
def lstrip (s : Str) : Str := s.dropWhile isPySpace

/-- Python `str.rstrip()`: drop trailing whitespace. -/
def rstrip (s : Str) : Str := (s.reverse.dropWhile isPySpace).reverse

/-- Python `str.strip()`: drop leading and trailing whitespace. -/
def strip (s : Str) : Str := rstrip (lstrip s)

/-- The paragraph delimiter `"\n\n"` of `agents.py`. -/
def nl2 : Str := ['\n', '\n']

/-- Python `text.split("\n\n")`: left-to-right greedy split on the
two-newline delimiter, as performed by `paragraph_chunk_split`. -/
def splitParas : Str → List Str
  | [] => [[]]
  | [c] => [[c]]
  | c₁ :: c₂ :: rest =>
    if c₁ = '\n' ∧ c₂ = '\n' then
      [] :: splitParas rest
    else
      match splitParas (c₂ :: rest) with
      | [] => [[c₁]]
      | s :: ss => (c₁ :: s) :: ss

/-- Python `sep.join(pieces)`. -/
def joinSep (sep : Str) : List Str → Str
  | [] => []
  | [x] => x
  | x :: y :: rest => x ++ sep ++ joinSep sep (y :: rest)

/-- The loop of `paragraph_chunk_split` (`agents.py` lines 181–191):
iterate over the paragraphs, greedily accumulating `current`; flush the
(stripped) buffer whenever adding the next paragraph-with-delimiter
would exceed `chunk_size`; flush the final non-empty buffer. -/
def chunkGo (chunk_size : Nat) : List Str → Str → List Str → List Str
  | [], current, chunks =>
    if current = [] then chunks else chunks ++ [strip current]
  | para :: rest, current, chunks =>
    let pw := strip para ++ nl2
    if current.length + pw.length > chunk_size then
      chunkGo chunk_size rest pw
        (if current = [] then chunks else chunks ++ [strip current])
    else
      chunkGo chunk_size rest (current ++ pw) chunks

/-- `paragraph_chunk_split` of `agents.py` (lines 170–193): split `text`
into chunks of at most `chunk_size` characters while keeping paragraphs
(separated by `"\n\n"`) intact. -/
def paragraph_chunk_split (text : Str) (chunk_size : Nat) : List Str :=
  chunkGo chunk_size (splitParas text) [] []

example : paragraph_chunk_split [] 2000 = [[]] := by decide

example :
    paragraph_chunk_split ("Para one.\n\nPara two is long.".toList) 20 =
      ["Para one.".toList, "Para two is long.".toList] := by decide

/-! ## Facts about `lstrip`, `rstrip` and `strip` -/

theorem rstrip_eq_rdropWhile (s : Str) : rstrip s = s.rdropWhile isPySpace := rfl

theorem lstrip_length_le (s : Str) : (lstrip s).length ≤ s.length :=
  (List.dropWhile_suffix isPySpace).sublist.length_le

theorem rstrip_length_le (s : Str) : (rstrip s).length ≤ s.length :=
  (List.rdropWhile_prefix isPySpace s).sublist.length_le

theorem strip_length_le (s : Str) : (strip s).length ≤ s.length :=
  le_trans (rstrip_length_le (lstrip s)) (lstrip_length_le s)

theorem strip_nil : strip [] = [] := rfl

theorem lstrip_lstrip (s : Str) : lstrip (lstrip s) = lstrip s :=
  List.dropWhile_idempotent isPySpace s

theorem rstrip_rstrip (s : Str) : rstrip (rstrip s) = rstrip s :=
  List.rdropWhile_idempotent isPySpace s

theorem head_not_space_of_lstrip_self {a : Char} {l : Str}
    (h : lstrip (a :: l) = a :: l) : ¬ isPySpace a := by
  intro ha
  rw [lstrip, List.dropWhile_cons, if_pos ha] at h
  have := congrArg List.length h
  have hle := lstrip_length_le l
  simp only [List.length_cons] at this
  rw [lstrip] at hle
  omega

theorem lstrip_rstrip_of_lstrip {s : Str} (h : lstrip s = s) :
    lstrip (rstrip s) = rstrip s := by
  rcases hr : rstrip s with _ | ⟨a, z⟩
  · rfl
  · obtain ⟨t, ht⟩ := List.rdropWhile_prefix isPySpace s
    rw [← rstrip_eq_rdropWhile, hr] at ht
    have ha : ¬ isPySpace a := by
      apply head_not_space_of_lstrip_self (l := z ++ t)
      rw [← List.cons_append, ht, h]
    rw [lstrip, List.dropWhile_cons, if_neg ha]

theorem strip_strip (s : Str) : strip (strip s) = strip s := by
  rw [strip, strip, lstrip_rstrip_of_lstrip (lstrip_lstrip s), rstrip_rstrip]

theorem lstrip_eq_nil_of_ws {w : Str} (h : ∀ c ∈ w, isPySpace c) : lstrip w = [] :=
  List.dropWhile_eq_nil_iff.mpr h

theorem rstrip_append_ws {w : Str} (s : Str) (h : ∀ c ∈ w, isPySpace c) :
    rstrip (s ++ w) = rstrip s := by
  have hw : List.dropWhile isPySpace w.reverse = [] :=
    List.dropWhile_eq_nil_iff.mpr (fun c hc => h c (List.mem_reverse.mp hc))
  rw [rstrip, List.reverse_append, List.dropWhile_append, hw]
  simp [rstrip]

theorem lstrip_append_of_ne {x : Str} (y : Str) (h : lstrip x ≠ []) :
    lstrip (x ++ y) = lstrip x ++ y := by
  rw [lstrip, List.dropWhile_append]
  have : (List.dropWhile isPySpace x).isEmpty = false := by
    simp only [List.isEmpty_eq_false]
    exact h
  rw [this]
  rfl

theorem rstrip_append {y : Str} (x : Str) (h : rstrip y ≠ []) :
    rstrip (x ++ y) = x ++ rstrip y := by
  rw [rstrip, List.reverse_append, List.dropWhile_append]
  have : (List.dropWhile isPySpace y.reverse).isEmpty = false := by
    simp only [List.isEmpty_eq_false]
    intro hc
    apply h
    rw [rstrip, hc, List.reverse_nil]
  rw [this]
  simp [rstrip]

theorem strip_append_ws {w : Str} (s : Str) (h : ∀ c ∈ w, isPySpace c) :
    strip (s ++ w) = strip s := by
  by_cases hs : lstrip s = []
  · have hsw : lstrip (s ++ w) = [] := by
      rw [lstrip, List.dropWhile_eq_nil_iff]
      intro c hc
      rcases List.mem_append.mp hc with hcs | hcw
      · exact List.dropWhile_eq_nil_iff.mp hs c hcs
      · exact h c hcw
    rw [strip, strip, hs, hsw]
  · rw [strip, strip, lstrip_append_of_ne w hs, rstrip_append_ws (lstrip s) h]

theorem strip_ws {w : Str} (h : ∀ c ∈ w, isPySpace c) : strip w = [] := by
  rw [strip, lstrip_eq_nil_of_ws h]
  rfl

theorem nl2_ws : ∀ c ∈ nl2, isPySpace c := by decide

theorem strip_strip_append_nl2 (p : Str) : strip (strip p ++ nl2) = strip p := by
  rw [strip_append_ws (strip p) nl2_ws, strip_strip]

theorem lstrip_eq_self_of_strip {s : Str} (h : strip s = s) : lstrip s = s := by
  have h1 : (strip s).length ≤ (lstrip s).length := rstrip_length_le (lstrip s)
  have h2 : (lstrip s).length ≤ s.length := lstrip_length_le s
  have hlen : (lstrip s).length = s.length := by rw [h] at h1; omega
  exact (List.dropWhile_suffix isPySpace).sublist.eq_of_length hlen

theorem rstrip_eq_self_of_strip {s : Str} (h : strip s = s) : rstrip s = s := by
  have := lstrip_eq_self_of_strip h
  rw [strip, this] at h
  exact h

/-! ## Facts about `splitParas` and `joinSep` -/

/-- Two-step list induction, following the recursion pattern of
`splitParas`. -/
theorem twoStepInduction {motive : Str → Prop} (h0 : motive [])
    (h1 : ∀ c, motive [c])
    (h2 : ∀ c₁ c₂ rest, motive rest → motive (c₂ :: rest) →
      motive (c₁ :: c₂ :: rest)) :
    ∀ s, motive s := by
  have key : ∀ n s, s.length ≤ n → motive s := by
    intro n
    induction n with
    | zero =>
      intro s hs
      rw [Nat.le_zero, List.length_eq_zero] at hs
      rw [hs]
      exact h0
    | succ n ih =>
      intro s hs
      match s with
      | [] => exact h0
      | [c] => exact h1 c
      | c₁ :: c₂ :: rest =>
        simp only [List.length_cons] at hs
        exact h2 c₁ c₂ rest (ih rest (by omega)) (ih (c₂ :: rest) (by simp; omega))
  intro s
  exact key s.length s le_rfl

theorem splitParas_cons₂ (c₁ c₂ : Char) (rest : Str) :
    splitParas (c₁ :: c₂ :: rest) =
      if c₁ = '\n' ∧ c₂ = '\n' then
        [] :: splitParas rest
      else
        match splitParas (c₂ :: rest) with
        | [] => [[c₁]]
        | s :: ss => (c₁ :: s) :: ss := by
  rfl

theorem splitParas_ne_nil (s : Str) : splitParas s ≠ [] := by
  induction s using twoStepInduction with
  | h0 => simp [splitParas]
  | h1 c => simp [splitParas]
  | h2 c₁ c₂ rest ih ih2 =>
    rw [splitParas_cons₂]
    split
    · simp
    · rcases h : splitParas (c₂ :: rest) with _ | ⟨p, ps⟩
      · simp
      · simp

theorem joinSep_cons (sep x : Str) (xs : List Str) (h : xs ≠ []) :
    joinSep sep (x :: xs) = x ++ sep ++ joinSep sep xs := by
  rcases xs with _ | ⟨y, ys⟩
  · exact absurd rfl h
  · rfl

theorem joinSep_splitParas (s : Str) : joinSep nl2 (splitParas s) = s := by
  induction s using twoStepInduction with
  | h0 => rfl
  | h1 c => rfl
  | h2 c₁ c₂ rest ih ih2 =>
    rw [splitParas_cons₂]
    split
    · rename_i hnl
      rw [joinSep_cons nl2 [] (splitParas rest) (splitParas_ne_nil rest), ih]
      simp [nl2, hnl.1, hnl.2]
    · rcases h : splitParas (c₂ :: rest) with _ | ⟨p, ps⟩
      · exact absurd h (splitParas_ne_nil _)
      · rw [h] at ih2
        rcases ps with _ | ⟨q, qs⟩
        · simpa [joinSep] using ih2
        · rw [joinSep_cons nl2 (c₁ :: p) (q :: qs) (by simp)]
          rw [joinSep_cons nl2 p (q :: qs) (by simp)] at ih2
          simp only [List.cons_append, List.append_assoc] at ih2 ⊢
          rw [ih2]

/-! ## Chunk structure: `paragraph_chunk_split` groups consecutive paragraphs

`groupsGo` mirrors the loop of `paragraph_chunk_split` at the level of
paragraph groups: instead of the running text buffer `current` it keeps
the list `gp` of paragraphs accumulated so far.  `flatGlue gp` is the
text of the buffer and `glue gp` the chunk emitted from it, so
`chunkGo_eq_groupsGo` below identifies the two loops. -/

/-- The text of the running buffer holding the paragraph group `g`:
each paragraph stripped with its `"\n\n"` delimiter restored. -/
def flatGlue (g : List Str) : Str :=
  (g.map (fun p => strip p ++ nl2)).flatten

/-- The chunk emitted from a buffered paragraph group. -/
def glue (g : List Str) : Str := strip (flatGlue g)

/-- The grouping performed by the loop of `paragraph_chunk_split`:
partition the paragraph list into the consecutive groups that end up in
one chunk each. -/
def groupsGo (chunk_size : Nat) : List Str → List Str → List (List Str)
  | [], gp => if gp = [] then [] else [gp]
  | para :: rest, gp =>
    let pw := strip para ++ nl2
    if (flatGlue gp).length + pw.length > chunk_size then
      (if gp = [] then [] else [gp]) ++ groupsGo chunk_size rest [para]
    else
      groupsGo chunk_size rest (gp ++ [para])

theorem flatGlue_nil : flatGlue [] = [] := rfl

theorem flatGlue_append (g₁ g₂ : List Str) :
    flatGlue (g₁ ++ g₂) = flatGlue g₁ ++ flatGlue g₂ := by
  simp [flatGlue]

theorem flatGlue_singleton (p : Str) : flatGlue [p] = strip p ++ nl2 := by
  simp [flatGlue]

theorem flatGlue_eq_nil_iff (g : List Str) : flatGlue g = [] ↔ g = [] := by
  constructor
  · intro h
    rcases g with _ | ⟨p, g'⟩
    · rfl
    · exfalso
      rw [show p :: g' = [p] ++ g' from rfl, flatGlue_append, flatGlue_singleton] at h
      simp [nl2] at h
  · intro h
    rw [h]
    rfl

theorem chunkGo_eq_groupsGo (n : Nat) :
    ∀ (paras : List Str) (gp : List Str) (chunks : List Str),
      chunkGo n paras (flatGlue gp) chunks =
        chunks ++ (groupsGo n paras gp).map glue := by
  intro paras
  induction paras with
  | nil =>
    intro gp chunks
    rw [chunkGo, groupsGo]
    by_cases h : gp = []
    · rw [if_pos ((flatGlue_eq_nil_iff gp).mpr h), if_pos h]
      simp
    · rw [if_neg (fun hc => h ((flatGlue_eq_nil_iff gp).mp hc)), if_neg h]
      simp [glue]
  | cons para rest ih =>
    intro gp chunks
    rw [chunkGo, groupsGo]
    by_cases hsz : (flatGlue gp).length + (strip para ++ nl2).length > n
    · rw [if_pos hsz, if_pos hsz]
      have h1 : strip para ++ nl2 = flatGlue [para] := (flatGlue_singleton para).symm
      rw [h1, ih [para]]
      by_cases h : gp = []
      · rw [if_pos ((flatGlue_eq_nil_iff gp).mpr h), if_pos h]
        simp
      · rw [if_neg (fun hc => h ((flatGlue_eq_nil_iff gp).mp hc)), if_neg h]
        simp [glue]
    · rw [if_neg hsz, if_neg hsz]
      have h1 : flatGlue gp ++ (strip para ++ nl2) = flatGlue (gp ++ [para]) := by
        rw [flatGlue_append, flatGlue_singleton]
      rw [h1, ih (gp ++ [para])]

theorem paragraph_chunk_split_eq_groups (text : Str) (n : Nat) :
    paragraph_chunk_split text n = (groupsGo n (splitParas text) []).map glue := by
  rw [paragraph_chunk_split, show ([] : Str) = flatGlue [] from rfl,
    chunkGo_eq_groupsGo]
  simp

theorem groupsGo_flatten (n : Nat) :
    ∀ (paras gp : List Str), (groupsGo n paras gp).flatten = gp ++ paras := by
  intro paras
  induction paras with
  | nil =>
    intro gp
    rw [groupsGo]
    by_cases h : gp = []
    · rw [if_pos h, h]
      rfl
    · rw [if_neg h]
      simp
  | cons para rest ih =>
    intro gp
    rw [groupsGo]
    by_cases hsz : (flatGlue gp).length + (strip para ++ nl2).length > n
    · rw [if_pos hsz, List.flatten_append, ih [para]]
      by_cases h : gp = []
      · rw [if_pos h, h]
        rfl
      · rw [if_neg h]
        simp
    · rw [if_neg hsz, ih (gp ++ [para])]
      simp

theorem groupsGo_ne_nil (n : Nat) :
    ∀ (paras gp : List Str), ∀ g ∈ groupsGo n paras gp, g ≠ [] := by
  intro paras
  induction paras with
  | nil =>
    intro gp g hg
    rw [groupsGo] at hg
    by_cases h : gp = []
    · rw [if_pos h] at hg
      simp at hg
    · rw [if_neg h] at hg
      simp at hg
      rw [hg]
      exact h
  | cons para rest ih =>
    intro gp g hg
    rw [groupsGo] at hg
    by_cases hsz : (flatGlue gp).length + (strip para ++ nl2).length > n
    · rw [if_pos hsz] at hg
      rcases List.mem_append.mp hg with h1 | h2
      · by_cases h : gp = []
        · rw [if_pos h] at h1
          simp at h1
        · rw [if_neg h] at h1
          simp at h1
          rw [h1]
          exact h
      · exact ih [para] g h2
    · rw [if_neg hsz] at hg
      exact ih (gp ++ [para]) g hg

/-- Loop invariant of `paragraph_chunk_split`: every emitted paragraph
group either fits the budget (buffer text within `chunk_size`) or is a
single paragraph. -/
theorem groupsGo_size (n : Nat) :
    ∀ (paras gp : List Str),
      ((flatGlue gp).length ≤ n ∨ ∃ p, gp = [p]) →
      ∀ g ∈ groupsGo n paras gp, (flatGlue g).length ≤ n ∨ ∃ p, g = [p] := by
  intro paras
  induction paras with
  | nil =>
    intro gp hgp g hg
    rw [groupsGo] at hg
    by_cases h : gp = []
    · rw [if_pos h] at hg
      simp at hg
    · rw [if_neg h] at hg
      simp at hg
      rw [hg]
      exact hgp
  | cons para rest ih =>
    intro gp hgp g hg
    rw [groupsGo] at hg
    by_cases hsz : (flatGlue gp).length + (strip para ++ nl2).length > n
    · rw [if_pos hsz] at hg
      rcases List.mem_append.mp hg with h1 | h2
      · by_cases h : gp = []
        · rw [if_pos h] at h1
          simp at h1
        · rw [if_neg h] at h1
          simp at h1
          rw [h1]
          exact hgp
      · exact ih [para] (Or.inr ⟨para, rfl⟩) g h2
    · rw [if_neg hsz] at hg
      refine ih (gp ++ [para]) ?_ g hg
      left
      rw [flatGlue_append, flatGlue_singleton, List.length_append]
      omega

/-- A pending buffer whose text already exceeds the budget is flushed
unchanged as its own group. -/
theorem groupsGo_oversized_pending (n : Nat) :
    ∀ (paras gp : List Str), n < (flatGlue gp).length → gp ∈ groupsGo n paras gp := by
  intro paras
  induction paras with
  | nil =>
    intro gp h
    have hne : gp ≠ [] := by
      intro hc
      rw [hc, flatGlue_nil] at h
      simp at h
    rw [groupsGo, if_neg hne]
    simp
  | cons para rest ih =>
    intro gp h
    have hne : gp ≠ [] := by
      intro hc
      rw [hc, flatGlue_nil] at h
      simp at h
    have hsz : (flatGlue gp).length + (strip para ++ nl2).length > n := by omega
    rw [groupsGo, if_pos hsz, if_neg hne]
    simp

/-- A paragraph whose stripped text exceeds the budget always forms a
singleton group of its own. -/
theorem groupsGo_oversized_para (n : Nat) :
    ∀ (paras gp : List Str), ∀ p ∈ paras, n < (strip p).length →
      [p] ∈ groupsGo n paras gp := by
  intro paras
  induction paras with
  | nil =>
    intro gp p hp
    simp at hp
  | cons para rest ih =>
    intro gp p hp hbig
    rcases List.mem_cons.mp hp with rfl | hmem
    · have hsz : (flatGlue gp).length + (strip p ++ nl2).length > n := by
        rw [List.length_append]
        omega
      rw [groupsGo, if_pos hsz]
      refine List.mem_append.mpr (Or.inr ?_)
      refine groupsGo_oversized_pending n rest [p] ?_
      rw [flatGlue_singleton, List.length_append]
      omega
    · rw [groupsGo]
      by_cases hsz : (flatGlue gp).length + (strip para ++ nl2).length > n
      · rw [if_pos hsz]
        exact List.mem_append.mpr (Or.inr (ih [para] p hmem hbig))
      · rw [if_neg hsz]
        exact ih (gp ++ [para]) p hmem hbig

/-! ## The non-whitespace content of a string -/

/-- The non-whitespace characters of a string, in order. -/
def nwf (s : Str) : Str := s.filter (fun c => !isPySpace c)

theorem nwf_append (s t : Str) : nwf (s ++ t) = nwf s ++ nwf t := by
  simp [nwf]

theorem nwf_nl2 : nwf nl2 = [] := rfl

theorem nwf_lstrip (s : Str) : nwf (lstrip s) = nwf s := by
  induction s with
  | nil => rfl
  | cons c t ih =>
    rw [lstrip, List.dropWhile_cons]
    by_cases hc : isPySpace c
    · rw [if_pos hc]
      rw [lstrip] at ih
      rw [ih]
      simp [nwf, List.filter_cons, hc]
    · rw [if_neg hc]

theorem nwf_reverse (s : Str) : nwf s.reverse = (nwf s).reverse :=
  List.filter_reverse _ _

theorem nwf_rstrip (s : Str) : nwf (rstrip s) = nwf s := by
  rw [rstrip, show List.dropWhile isPySpace s.reverse = lstrip s.reverse from rfl,
    nwf_reverse, nwf_lstrip, nwf_reverse, List.reverse_reverse]

theorem nwf_strip (s : Str) : nwf (strip s) = nwf s := by
  rw [strip, nwf_rstrip, nwf_lstrip]

theorem nwf_joinSep (l : List Str) :
    nwf (joinSep nl2 l) = (l.map nwf).flatten := by
  induction l with
  | nil => rfl
  | cons x xs ih =>
    rcases xs with _ | ⟨y, ys⟩
    · simp [joinSep, nwf]
    · rw [joinSep, nwf_append, nwf_append, nwf_nl2, ih]
      simp

theorem nwf_flatGlue (g : List Str) : nwf (flatGlue g) = (g.map nwf).flatten := by
  induction g with
  | nil => rfl
  | cons p g' ih =>
    rw [show p :: g' = [p] ++ g' from rfl, flatGlue_append, flatGlue_singleton,
      nwf_append, nwf_append, nwf_nl2, nwf_strip, ih]
    simp

theorem nwf_glue (g : List Str) : nwf (glue g) = (g.map nwf).flatten := by
  rw [glue, nwf_strip, nwf_flatGlue]

/-! ## Joining chunks: round-trip lemmas -/

theorem joinSep_head_append (sep x : Str) (xs : List Str) :
    ∃ r, joinSep sep (x :: xs) = x ++ r := by
  rcases xs with _ | ⟨y, ys⟩
  · exact ⟨[], by simp [joinSep]⟩
  · exact ⟨sep ++ joinSep sep (y :: ys), by simp [joinSep]⟩

theorem joinSep_append (sep : Str) :
    ∀ (l₁ l₂ : List Str), l₁ ≠ [] → l₂ ≠ [] →
      joinSep sep (l₁ ++ l₂) = joinSep sep l₁ ++ sep ++ joinSep sep l₂ := by
  intro l₁
  induction l₁ with
  | nil =>
    intro l₂ h₁ h₂
    exact absurd rfl h₁
  | cons x rest ih =>
    intro l₂ h₁ h₂
    rcases rest with _ | ⟨y, ys⟩
    · rw [List.singleton_append, joinSep_cons sep x l₂ h₂]
      rfl
    · rw [List.cons_append, joinSep_cons sep x ((y :: ys) ++ l₂) (by simp),
        joinSep_cons sep x (y :: ys) (by simp), ih l₂ (by simp) h₂]
      simp [List.append_assoc]

theorem flatten_ne_nil_of_groups {gs : List (List Str)} (hne : gs ≠ [])
    (h : ∀ g ∈ gs, g ≠ []) : gs.flatten ≠ [] := by
  rcases gs with _ | ⟨g, gs'⟩
  · exact absurd rfl hne
  · rw [List.flatten_cons]
    intro hc
    rcases List.append_eq_nil.mp hc with ⟨h1, _⟩
    exact h g (by simp) h1

theorem joinSep_map_joinSep (sep : Str) :
    ∀ (gs : List (List Str)), (∀ g ∈ gs, g ≠ []) →
      joinSep sep (gs.map (joinSep sep)) = joinSep sep gs.flatten := by
  intro gs
  induction gs with
  | nil => intro _; rfl
  | cons g gs' ih =>
    intro h
    rcases gs' with _ | ⟨g', gs''⟩
    · simp [joinSep]
    · have hg : g ≠ [] := h g (by simp)
      have hrest : ∀ x ∈ g' :: gs'', x ≠ [] := fun x hx => h x (by simp [hx])
      have hfl : (g' :: gs'').flatten ≠ [] := flatten_ne_nil_of_groups (by simp) hrest
      have hR : joinSep sep (g :: g' :: gs'').flatten =
          joinSep sep g ++ sep ++ joinSep sep (g' :: gs'').flatten := by
        rw [List.flatten_cons, joinSep_append sep g (g' :: gs'').flatten hg hfl]
      rw [List.map_cons, joinSep_cons sep (joinSep sep g) _ (by simp),
        ih hrest, hR]

theorem flatGlue_eq_joinSep_of_clean :
    ∀ (g : List Str), g ≠ [] → (∀ p ∈ g, strip p = p) →
      flatGlue g = joinSep nl2 g ++ nl2 := by
  intro g
  induction g with
  | nil => intro h _; exact absurd rfl h
  | cons p g' ih =>
    intro _ hclean
    rcases g' with _ | ⟨q, g''⟩
    · rw [flatGlue_singleton, hclean p (by simp)]
      rfl
    · rw [show p :: q :: g'' = [p] ++ (q :: g'') from rfl, flatGlue_append,
        flatGlue_singleton, hclean p (by simp),
        ih (by simp) (fun x hx => hclean x (by simp [hx]))]
      rw [List.singleton_append, joinSep_cons nl2 p (q :: g'') (by simp)]
      simp [List.append_assoc]

theorem strip_joinSep_clean :
    ∀ (g : List Str), (∀ p ∈ g, strip p = p ∧ p ≠ []) →
      strip (joinSep nl2 g) = joinSep nl2 g := by
  intro g
  induction g with
  | nil => intro _; rfl
  | cons p g' ih =>
    intro hclean
    have hp : strip p = p := (hclean p (by simp)).1
    have hpne : p ≠ [] := (hclean p (by simp)).2
    rcases g' with _ | ⟨q, g''⟩
    · exact hp
    · have hrest : ∀ x ∈ q :: g'', strip x = x ∧ x ≠ [] :=
        fun x hx => hclean x (by simp [hx])
      have hJ := ih hrest
      have hJne : joinSep nl2 (q :: g'') ≠ [] := by
        obtain ⟨r, hr⟩ := joinSep_head_append nl2 q g''
        rw [hr]
        intro hc
        rcases List.append_eq_nil.mp hc with ⟨h1, _⟩
        exact (hrest q (by simp)).2 h1
      rw [joinSep_cons nl2 p (q :: g'') (by simp)]
      have hlp : lstrip p = p := lstrip_eq_self_of_strip hp
      have hlstr : lstrip (p ++ (nl2 ++ joinSep nl2 (q :: g''))) =
          p ++ (nl2 ++ joinSep nl2 (q :: g'')) := by
        rcases p with _ | ⟨a, t⟩
        · exact absurd rfl hpne
        · have ha : ¬ isPySpace a := head_not_space_of_lstrip_self hlp
          rw [List.cons_append, lstrip, List.dropWhile_cons, if_neg ha]
      have hrJ : rstrip (joinSep nl2 (q :: g'')) = joinSep nl2 (q :: g'') :=
        rstrip_eq_self_of_strip hJ
      have hrne : rstrip (joinSep nl2 (q :: g'')) ≠ [] := by
        rw [hrJ]; exact hJne
      rw [List.append_assoc, strip, hlstr, ← List.append_assoc,
        rstrip_append (p ++ nl2) hrne, hrJ]

/-- The chunks of `paragraph_chunk_split` joined with `"\n\n"` keep
exactly the non-whitespace characters of the input, in order. -/
theorem nwf_join_chunks (text : Str) (n : Nat) :
    nwf (joinSep nl2 (paragraph_chunk_split text n)) = nwf text := by
  rw [paragraph_chunk_split_eq_groups, nwf_joinSep]
  have h1 : ((groupsGo n (splitParas text) []).map glue).map nwf =
      (groupsGo n (splitParas text) []).map (fun g => (g.map nwf).flatten) := by
    rw [List.map_map]
    exact List.map_congr_left (fun g _ => nwf_glue g)
  rw [h1]
  have h2 : ∀ (gs : List (List Str)),
      (gs.map (fun g => (g.map nwf).flatten)).flatten = (gs.flatten.map nwf).flatten := by
    intro gs
    induction gs with
    | nil => rfl
    | cons g gs' ih => simp [ih]
  rw [h2, groupsGo_flatten, List.nil_append, ← nwf_joinSep, joinSep_splitParas]

/-- On input whose paragraphs are already trimmed and non-empty, joining
the chunks with `"\n\n"` restores the input exactly. -/
theorem join_chunks_exact (text : Str) (n : Nat)
    (hclean : ∀ p ∈ splitParas text, strip p = p ∧ p ≠ []) :
    joinSep nl2 (paragraph_chunk_split text n) = text := by
  rw [paragraph_chunk_split_eq_groups]
  have hmem : ∀ g ∈ groupsGo n (splitParas text) [], ∀ p ∈ g, strip p = p ∧ p ≠ [] := by
    intro g hg p hp
    refine hclean p ?_
    have : p ∈ (groupsGo n (splitParas text) []).flatten :=
      List.mem_flatten.mpr ⟨g, hg, hp⟩
    rwa [groupsGo_flatten, List.nil_append] at this
  have hne := groupsGo_ne_nil n (splitParas text) []
  have h1 : (groupsGo n (splitParas text) []).map glue =
      (groupsGo n (splitParas text) []).map (joinSep nl2) := by
    refine List.map_congr_left (fun g hg => ?_)
    rw [glue, flatGlue_eq_joinSep_of_clean g (hne g hg) (fun p hp => (hmem g hg p hp).1),
      strip_append_ws _ nl2_ws, strip_joinSep_clean g (hmem g hg)]
  rw [h1, joinSep_map_joinSep nl2 _ hne, groupsGo_flatten, List.nil_append,
    joinSep_splitParas]

/-! ## The workflow state, nodes and stage executors of `agents.py`

The external collaborators are abstracted as function parameters: the
PDF/DOCX loaders return the list of page contents of a document (joined
with `"\n\n"` by the Load node, as in `load_document_node`); the text
service maps a prompt to generated text; the document writer persists
the corrected text.  Code that can raise returns `Except Str α` with the
exception message as the error. -/

/-- The `ComplianceState` shared by the workflow nodes (`agents.py`). -/
structure ComplianceState where
  file_path : Str
  original_text : Str
  chunks : List Str
  compliance_reports : List Str
  corrected_chunks : List Str
  final_corrected_doc : Str
  output_path : Str
  deriving DecidableEq, Repr

/-- A fresh state as built by `ComplianceState(file_path=file_path)`. -/
def ComplianceState.init (file_path : Str) : ComplianceState :=
  { file_path := file_path
    original_text := []
    chunks := []
    compliance_reports := []
    corrected_chunks := []
    final_corrected_doc := []
    output_path := [] }

/-- Python `path.endswith(suffixStr)`. -/
def endswith (s suffixStr : Str) : Bool := suffixStr.isSuffixOf s

def pdfExt : Str := ".pdf".toList

def docxExt : Str := ".docx".toList

/-- The `ValueError` message of `load_document_node`. -/
def unsupportedMsg : Str := "Only PDF and DOCX supported.".toList

/-- The analysis prompt built by `compliance_check_node` for one chunk. -/
def checkPrompt (chunk : Str) : Str :=
  ( "Check the following text for compliance with English grammar, style, clarity, "
    ++ "and professional writing rules. Return a structured JSON report:\n\n").toList
    ++ chunk

/-- The correction prompt built by `correct_document_node` for one chunk. -/
def correctPrompt (chunk : Str) : Str :=
  ( "Correct the following text to fully comply with English grammar, style, clarity, "
    ++ "and professional writing rules.\n\n"
    ++ "INSTRUCTIONS:\n"
    ++ "1. Return ONLY the corrected text.\n"
    ++ "2. Do NOT add any explanations, summaries, or extra comments.\n"
    ++ "3. Keep the original paragraph structure.\n"
    ++ "4. Maintain the original meaning.\n\n"
    ++ "ORIGINAL TEXT:\n").toList
    ++ chunk
    ++ ( "\n\nCORRECTED TEXT:").toList

/-- `load_document_node`: choose the loader by file extension, join the
page contents with `"\n\n"`, store them in `original_text`; raise
`ValueError` for any other extension. -/
def load_document_node (loadPdf loadDocx : Str → Except Str (List Str))
    (st : ComplianceState) : Except Str ComplianceState :=
  if endswith st.file_path pdfExt then
    match loadPdf st.file_path with
    | .error e => .error e
    | .ok docs => .ok { st with original_text := joinSep nl2 docs }
  else if endswith st.file_path docxExt then
    match loadDocx st.file_path with
    | .error e => .error e
    | .ok docs => .ok { st with original_text := joinSep nl2 docs }
  else
    .error unsupportedMsg

/-- `chunk_text_node`: split `original_text` into paragraph chunks of at
most 2000 characters. -/
def chunk_text_node (st : ComplianceState) : ComplianceState :=
  { st with chunks := paragraph_chunk_split st.original_text 2000 }

/-- The sequential per-chunk loop of the Analyze and Rewrite nodes:
apply `f` to each element in order, aborting at the first exception with
nothing accumulated (the node's local list is discarded when it raises). -/
def mapE (f : Str → Except Str Str) : List Str → Except Str (List Str)
  | [] => .ok []
  | a :: l =>
    match f a with
    | .error e => .error e
    | .ok b =>
      match mapE f l with
      | .error e => .error e
      | .ok bs => .ok (b :: bs)

/-- `compliance_check_node`: one text-service call per chunk, in order,
collecting the raw reports. -/
def compliance_check_node (svc : Str → Except Str Str)
    (st : ComplianceState) : Except Str ComplianceState :=
  match mapE (fun c => svc (checkPrompt c)) st.chunks with
  | .error e => .error e
  | .ok reports => .ok { st with compliance_reports := reports }

/-- `correct_document_node`: one text-service call per chunk, in order;
each response is stripped of leading/trailing whitespace; the corrected
document is the stripped responses joined with `"\n\n"`. -/
def correct_document_node (svc : Str → Except Str Str)
    (st : ComplianceState) : Except Str ComplianceState :=
  match mapE (fun c => svc (correctPrompt c)) st.chunks with
  | .error e => .error e
  | .ok responses =>
    .ok { st with
          corrected_chunks := responses.map strip
          final_corrected_doc := joinSep nl2 (responses.map strip) }

/-- Python `os.path.basename`. -/
def basename (p : Str) : Str := (p.reverse.takeWhile (fun c => c ≠ '/')).reverse

/-- Python `name.split('.')[0]`. -/
def stemOf (p : Str) : Str := p.takeWhile (fun c => c ≠ '.')

/-- The output location computed by `save_corrected_doc_node`. -/
def outputPathFor (file_path : Str) : Str :=
  ( "output/corrected_").toList ++ stemOf (basename file_path) ++ ( ".docx").toList

/-- `save_corrected_doc_node`: write the corrected document (the writer
is the abstracted `python-docx` collaborator) and record `output_path`. -/
def save_corrected_doc_node (writeDoc : Str → Str → Except Str Unit)
    (st : ComplianceState) : Except Str ComplianceState :=
  match writeDoc st.final_corrected_doc (outputPathFor st.file_path) with
  | .error e => .error e
  | .ok _ => .ok { st with output_path := outputPathFor st.file_path }

/-- The Check-stage workflow `load → chunk → check` built by
`build_compliance_workflow`, run to completion: the first node failure
aborts the whole stage. -/
def runComplianceWorkflow (loadPdf loadDocx : Str → Except Str (List Str))
    (svc : Str → Except Str Str) (st : ComplianceState) :
    Except Str ComplianceState :=
  match load_document_node loadPdf loadDocx st with
  | .error e => .error e
  | .ok st1 => compliance_check_node svc (chunk_text_node st1)

/-- The Correct-stage workflow `correct → save` built by
`build_correction_workflow`, run to completion. -/
def runCorrectionWorkflow (svc : Str → Except Str Str)
    (writeDoc : Str → Str → Except Str Unit) (st : ComplianceState) :
    Except Str ComplianceState :=
  match correct_document_node svc st with
  | .error e => .error e
  | .ok st1 => save_corrected_doc_node writeDoc st1

/-! ## The job store of `main.py` -/

/-- The status strings stored in `file_storage[file_id]["status"]`. -/
inductive JobStatus where
  | uploaded
  | processing_compliance
  | compliance_complete
  | processing_correction
  | correction_complete
  | error
  deriving DecidableEq, Repr

/-- The Python status string of each `JobStatus` value. -/
def statusStr : JobStatus → Str
  | .uploaded => "uploaded".toList
  | .processing_compliance => "processing_compliance".toList
  | .compliance_complete => "compliance_complete".toList
  | .processing_correction => "processing_correction".toList
  | .correction_complete => "correction_complete".toList
  | .error => "error".toList

/-- One `file_storage` entry of `main.py`. -/
structure Job where
  file_path : Str
  original_filename : Str
  status : JobStatus
  compliance_reports : List Str
  chunks : List Str
  original_text : Str
  corrected_chunks : List Str
  final_corrected_doc : Str
  output_path : Str
  state : Option ComplianceState
  error : Option Str
  deriving DecidableEq, Repr

/-- The entry created by the `/upload` handler. -/
def Job.init (file_path original_filename : Str) : Job :=
  { file_path := file_path
    original_filename := original_filename
    status := .uploaded
    compliance_reports := []
    chunks := []
    original_text := []
    corrected_chunks := []
    final_corrected_doc := []
    output_path := []
    state := none
    error := none }

/-- `process_compliance_check` (`agents.py` lines 196–213): run the
Check workflow on a fresh state; on success store the reports, chunks,
text and state and set status `compliance_complete`; any exception is
caught, its message stored in `error`, and status set to `error`.  The
transient `processing_compliance` status written at the start of the
`try` block is overwritten on both paths and is not part of the final
record modelled here. -/
def process_compliance_check (loadPdf loadDocx : Str → Except Str (List Str))
    (svc : Str → Except Str Str) (job : Job) : Job :=
  match runComplianceWorkflow loadPdf loadDocx svc (ComplianceState.init job.file_path) with
  | .ok st =>
    { job with
      compliance_reports := st.compliance_reports
      chunks := st.chunks
      original_text := st.original_text
      state := some st
      status := .compliance_complete }
  | .error e => { job with status := .error, error := some e }

/-- The message of the `TypeError` raised when the Correct stage is run
on a job whose stored `state` is still `None` (its exact Python wording
is irrelevant to every claim). -/
def noneStateMsg : Str := "state is None".toList

/-- `process_document_correction` (`agents.py` lines 216–238): run the
Correct workflow on the state stored by the Check stage; on success
store the corrected chunks, final document, output path and state and
set status `correction_complete`; any exception is caught, its message
stored in `error`, and status set to `error`. -/
def process_document_correction (svc : Str → Except Str Str)
    (writeDoc : Str → Str → Except Str Unit) (job : Job) : Job :=
  match job.state with
  | none => { job with status := .error, error := some noneStateMsg }
  | some st =>
    match runCorrectionWorkflow svc writeDoc st with
    | .ok st1 =>
      { job with
        corrected_chunks := st1.corrected_chunks
        final_corrected_doc := st1.final_corrected_doc
        output_path := st1.output_path
        state := some st1
        status := .correction_complete }
    | .error e => { job with status := .error, error := some e }

/-! ## The HTTP trigger and status boundary of `main.py` -/

/-- The outcome of a stage-trigger endpoint: the background task was
scheduled, or the request was rejected with an HTTP error. -/
inductive TriggerResult where
  | scheduled
  | http400 (detail : Str)
  | http404
  deriving DecidableEq, Repr

/-- The `/check_compliance/{id}` handler (`main.py` lines 83–107): 404
for an unknown id; 400 unless the status is `uploaded` or
`compliance_complete`; otherwise schedule the Check stage. -/
def check_compliance (job : Option Job) : TriggerResult :=
  match job with
  | none => .http404
  | some j =>
    if j.status = .uploaded ∨ j.status = .compliance_complete then
      .scheduled
    else
      .http400 (( "File is currently ").toList ++ statusStr j.status)

/-- The `/correct_document/{id}` handler (`main.py` lines 110–131): 404
for an unknown id; 400 unless the status is `compliance_complete`;
otherwise schedule the Correct stage. -/
def correct_document (job : Option Job) : TriggerResult :=
  match job with
  | none => .http404
  | some j =>
    if j.status = .compliance_complete then
      .scheduled
    else
      .http400 (( "File must be compliance checked first. Current status: ").toList
        ++ statusStr j.status)

/-- The body of a `/status/{id}` response. -/
structure StatusResponse where
  status : JobStatus
  message : Option Str
  compliance_reports : List Str
  deriving DecidableEq, Repr

/-- Python truthiness of the `error` field (`if file_info["error"]:`):
`None` and the empty string are falsy. -/
def errTruthy : Option Str → Bool
  | none => false
  | some e => !e.isEmpty

def errMsgFor (e : Str) : Str := ( "Error: ").toList ++ e

/-- The `/status/{id}` handler (`main.py` lines 134–162): the error
message, when the `error` field is truthy, takes precedence over every
status-specific message. -/
def get_status (j : Job) : StatusResponse :=
  { status := j.status
    compliance_reports := j.compliance_reports
    message :=
      if errTruthy j.error then some (errMsgFor (j.error.getD []))
      else if j.status = .uploaded then
        some ( "File uploaded, ready for compliance checking").toList
      else if j.status = .processing_compliance then
        some ( "Compliance checking in progress...").toList
      else if j.status = .compliance_complete then
        some ( "Compliance checking complete, ready for correction").toList
      else if j.status = .processing_correction then
        some ( "Document correction in progress...").toList
      else if j.status = .correction_complete then
        some ( "Document correction complete, ready for download").toList
      else none }

/-! ## Facts about `mapE` -/

theorem mapE_ok_length {f : Str → Except Str Str} :
    ∀ {l r : List Str}, mapE f l = .ok r → r.length = l.length := by
  intro l
  induction l with
  | nil =>
    intro r h
    rw [mapE] at h
    cases h
    rfl
  | cons a l ih =>
    intro r h
    rw [mapE] at h
    cases hfa : f a with
    | error e => rw [hfa] at h; cases h
    | ok b =>
      rw [hfa] at h
      cases hml : mapE f l with
      | error e => rw [hml] at h; cases h
      | ok bs =>
        rw [hml] at h
        cases h
        simp [ih hml]

theorem mapE_ok_getD {f : Str → Except Str Str} :
    ∀ {l r : List Str}, mapE f l = .ok r →
      ∀ i, i < l.length → f (l.getD i []) = .ok (r.getD i []) := by
  intro l
  induction l with
  | nil =>
    intro r h i hi
    simp at hi
  | cons a l ih =>
    intro r h i hi
    rw [mapE] at h
    cases hfa : f a with
    | error e => rw [hfa] at h; cases h
    | ok b =>
      rw [hfa] at h
      cases hml : mapE f l with
      | error e => rw [hml] at h; cases h
      | ok bs =>
        rw [hml] at h
        cases h
        cases i with
        | zero => simpa using hfa
        | succ i =>
          simp only [List.getD_cons_succ]
          exact ih hml i (by simp at hi; omega)

/-! ## Sample data used by the witnesses -/

def sampleText : Str := ( "Para one.\n\nPara two is long.").toList

def sampleJob : Job := Job.init ( "temp_uploads/abc_doc.pdf").toList ( "doc.pdf").toList

def jobUploaded : Job := Job.init ( "temp_uploads/x_a.pdf").toList ( "a.pdf").toList

def jobErrored : Job :=
  { jobUploaded with status := .error, error := some ( "boom").toList }

def sampleState : ComplianceState :=
  { ComplianceState.init ( "temp_uploads/abc_doc.pdf").toList with
      original_text := ( "Hello there.").toList
      chunks := [( "Hello there.").toList] }

def jobWithState : Job :=
  { sampleJob with status := .compliance_complete, state := some sampleState }

def sampleLoad : Str → Except Str (List Str) := fun _ => .ok [( "Hello there.").toList]

def sampleSvc : Str → Except Str Str := fun _ => .ok ( " OK report ").toList

def failSvc : Str → Except Str Str := fun _ => .error ( "ServiceError").toList

def sampleWrite : Str → Str → Except Str Unit := fun _ _ => .ok ()

/-! ## The claims -/

/-- C2: every chunk of `paragraph_chunk_split` has length at most
`chunk_size`, unless it is a single (stripped) paragraph whose own
length exceeds `chunk_size`; such an oversized paragraph is never split
and is always emitted intact as its own chunk. -/
theorem c2_chunk_size_bound (text : Str) (n : Nat) :
    (∀ c ∈ paragraph_chunk_split text n,
      c.length ≤ n ∨ ∃ p ∈ splitParas text, c = strip p ∧ n < c.length) ∧
    (∀ p ∈ splitParas text, n < (strip p).length →
      strip p ∈ paragraph_chunk_split text n) := by
  constructor
  · intro c hc
    rw [paragraph_chunk_split_eq_groups] at hc
    obtain ⟨g, hg, rfl⟩ := List.mem_map.mp hc
    rcases groupsGo_size n (splitParas text) []
        (Or.inl (by rw [flatGlue_nil]; simp)) g hg with hle | ⟨p, rfl⟩
    · left
      calc (glue g).length ≤ (flatGlue g).length := strip_length_le (flatGlue g)
        _ ≤ n := hle
    · have hpmem : p ∈ splitParas text := by
        have : p ∈ (groupsGo n (splitParas text) []).flatten :=
          List.mem_flatten.mpr ⟨[p], hg, by simp⟩
        rwa [groupsGo_flatten, List.nil_append] at this
      have hglue : glue [p] = strip p := by
        rw [glue, flatGlue_singleton, strip_strip_append_nl2]
      by_cases hlen : (glue [p]).length ≤ n
      · exact Or.inl hlen
      · exact Or.inr ⟨p, hpmem, hglue, by omega⟩
  · intro p hp hbig
    rw [paragraph_chunk_split_eq_groups]
    have hg : [p] ∈ groupsGo n (splitParas text) [] :=
      groupsGo_oversized_para n (splitParas text) [] p hp hbig
    have hglue : glue [p] = strip p := by
      rw [glue, flatGlue_singleton, strip_strip_append_nl2]
    exact List.mem_map.mpr ⟨[p], hg, hglue⟩

theorem c2_chunk_size_bound_witness :
    (( "Para one.").toList ∈ paragraph_chunk_split sampleText 20 ∧
      (( "Para one.").toList.length ≤ 20 ∨
        ∃ p ∈ splitParas sampleText, ( "Para one.").toList = strip p ∧
          20 < ( "Para one.").toList.length)) ∧
    (( "abcdef").toList ∈ splitParas ( "abcdef").toList ∧
      strip ( "abcdef").toList ∈ paragraph_chunk_split ( "abcdef").toList 3) :=
  ⟨⟨by decide, (c2_chunk_size_bound sampleText 20).1 _ (by decide)⟩,
    ⟨by decide,
      (c2_chunk_size_bound ( "abcdef").toList 3).2 _ (by decide) (by decide)⟩⟩

/-- C3 counterexample: on the empty string `paragraph_chunk_split`
returns one chunk (the empty string), not an empty sequence — Python's
`"".split("\n\n")` is `[""]`, the loop buffers `"\n\n"` for that empty
paragraph, and the final flush emits its stripped form `""`. -/
theorem c3_empty_input_counterexample :
    paragraph_chunk_split [] 2000 ≠ [] ∧
    paragraph_chunk_split [] 2000 = [[]] := by
  constructor
  · decide
  · decide

/-- C3 amended: `paragraph_chunk_split` applied to the empty string
returns, for every `chunk_size`, the one-element sequence containing the
empty chunk (chunk count 1, not 0); the algorithm is total, so a
paragraph that trims to empty never crashes it. -/
theorem c3_empty_input_amended :
    ∀ n : Nat, paragraph_chunk_split [] n = [[]] := by
  intro n
  show chunkGo n [[]] [] [] = [[]]
  rw [chunkGo]
  split
  · rw [if_pos rfl]
    rfl
  · rfl

/-- C8: joining the chunks of `paragraph_chunk_split` with `"\n\n"`
recovers the original paragraph content modulo the whitespace trimming
the algorithm applies to each paragraph: the non-whitespace characters
are always preserved exactly and in order, and on input whose paragraphs
are already trimmed and non-empty the join restores the input verbatim. -/
theorem c8_join_roundtrip (text : Str) (n : Nat) :
    nwf (joinSep nl2 (paragraph_chunk_split text n)) = nwf text ∧
    ((∀ p ∈ splitParas text, strip p = p ∧ p ≠ []) →
      joinSep nl2 (paragraph_chunk_split text n) = text) :=
  ⟨nwf_join_chunks text n, join_chunks_exact text n⟩

theorem c8_join_roundtrip_witness :
    (∀ p ∈ splitParas sampleText, strip p = p ∧ p ≠ []) ∧
    joinSep nl2 (paragraph_chunk_split sampleText 20) = sampleText :=
  ⟨by decide, (c8_join_roundtrip sampleText 20).2 (by decide)⟩

/-- C4: triggering the Correct stage is accepted exactly when the job's
status is `compliance_complete`; from any other status the handler
answers HTTP 400 with the illegal-transition detail, schedules nothing
and does not crash (the handler is a total function). -/
theorem c4_trigger_correct_iff (j : Job) :
    (correct_document (some j) = .scheduled ↔ j.status = .compliance_complete) ∧
    (j.status ≠ .compliance_complete →
      correct_document (some j) =
        .http400 (( "File must be compliance checked first. Current status: ").toList
          ++ statusStr j.status)) := by
  by_cases hs : j.status = .compliance_complete
  · constructor
    · simp [correct_document, hs]
    · intro hc
      exact absurd hs hc
  · constructor
    · simp [correct_document, hs]
    · intro _
      simp [correct_document, hs]

theorem c4_trigger_correct_iff_witness :
    (jobUploaded.status ≠ JobStatus.compliance_complete ∧
      correct_document (some jobUploaded) =
        .http400 (( "File must be compliance checked first. Current status: ").toList
          ++ statusStr jobUploaded.status)) ∧
    (correct_document (some jobWithState) = .scheduled ↔
      jobWithState.status = .compliance_complete) :=
  ⟨⟨by decide, (c4_trigger_correct_iff jobUploaded).2 (by decide)⟩,
    (c4_trigger_correct_iff jobWithState).1⟩

/-- C5 counterexample: triggering the Check stage on a job whose status
is `error` is NOT accepted — `check_compliance` only accepts the
statuses `uploaded` and `compliance_complete`, so an errored job gets
HTTP 400 (`"File is currently error"`) and no retry is scheduled. -/
theorem c5_retrigger_from_error_counterexample :
    check_compliance (some jobErrored) ≠ .scheduled ∧
    check_compliance (some jobErrored) =
      .http400 (( "File is currently error").toList) := by
  constructor
  · decide
  · decide

/-- C5 amended: the Check trigger is accepted exactly from the statuses
`uploaded` and `compliance_complete`; from `error` it is rejected with
HTTP 400, so an errored job cannot be retried through this endpoint. -/
theorem c5_retrigger_from_error_amended (j : Job) :
    (check_compliance (some j) = .scheduled ↔
      (j.status = .uploaded ∨ j.status = .compliance_complete)) ∧
    (j.status = .error →
      check_compliance (some j) =
        .http400 (( "File is currently ").toList ++ statusStr j.status)) := by
  by_cases hs : j.status = .uploaded ∨ j.status = .compliance_complete
  · constructor
    · simp [check_compliance, hs]
    · intro he
      rw [he] at hs
      rcases hs with h | h <;> cases h
  · constructor
    · simp [check_compliance, hs]
    · intro _
      simp [check_compliance, hs]

theorem c5_retrigger_from_error_amended_witness :
    jobErrored.status = JobStatus.error ∧
    check_compliance (some jobErrored) =
      .http400 (( "File is currently ").toList ++ statusStr jobErrored.status) :=
  ⟨rfl, (c5_retrigger_from_error_amended jobErrored).2 rfl⟩

/-- C6: for either stage executor, if the stage workflow raises, the
executor catches the exception, records its message in the job's
`error` field and sets status `error`; if the workflow succeeds the
completion status is set.  In both cases the executor returns a job
record normally — the failure is neither swallowed (it is recorded)
nor propagated (the executor is total). -/
theorem c6_stage_failure_recorded (loadPdf loadDocx : Str → Except Str (List Str))
    (svcC svcR : Str → Except Str Str) (writeDoc : Str → Str → Except Str Unit)
    (job : Job) :
    ((∃ e, runComplianceWorkflow loadPdf loadDocx svcC (ComplianceState.init job.file_path) = .error e ∧
        (process_compliance_check loadPdf loadDocx svcC job).status = .error ∧
        (process_compliance_check loadPdf loadDocx svcC job).error = some e) ∨
      (∃ st, runComplianceWorkflow loadPdf loadDocx svcC (ComplianceState.init job.file_path) = .ok st ∧
        (process_compliance_check loadPdf loadDocx svcC job).status = .compliance_complete)) ∧
    (∀ st₀, job.state = some st₀ →
      ((∃ e, runCorrectionWorkflow svcR writeDoc st₀ = .error e ∧
          (process_document_correction svcR writeDoc job).status = .error ∧
          (process_document_correction svcR writeDoc job).error = some e) ∨
        (∃ st, runCorrectionWorkflow svcR writeDoc st₀ = .ok st ∧
          (process_document_correction svcR writeDoc job).status = .correction_complete))) := by
  constructor
  · cases hw : runComplianceWorkflow loadPdf loadDocx svcC (ComplianceState.init job.file_path) with
    | error e =>
      left
      exact ⟨e, rfl, by simp [process_compliance_check, hw],
        by simp [process_compliance_check, hw]⟩
    | ok st =>
      right
      exact ⟨st, rfl, by simp [process_compliance_check, hw]⟩
  · intro st₀ h₀
    cases hw : runCorrectionWorkflow svcR writeDoc st₀ with
    | error e =>
      left
      exact ⟨e, rfl, by simp [process_document_correction, h₀, hw],
        by simp [process_document_correction, h₀, hw]⟩
    | ok st =>
      right
      exact ⟨st, rfl, by simp [process_document_correction, h₀, hw]⟩

theorem c6_stage_failure_recorded_witness :
    jobWithState.state = some sampleState ∧
    ((∃ e, runCorrectionWorkflow failSvc sampleWrite sampleState = .error e ∧
        (process_document_correction failSvc sampleWrite jobWithState).status = .error ∧
        (process_document_correction failSvc sampleWrite jobWithState).error = some e) ∨
      (∃ st, runCorrectionWorkflow failSvc sampleWrite sampleState = .ok st ∧
        (process_document_correction failSvc sampleWrite jobWithState).status = .correction_complete)) :=
  ⟨rfl, (c6_stage_failure_recorded sampleLoad sampleLoad failSvc failSvc sampleWrite
    jobWithState).2 sampleState rfl⟩

/-- C7: the Load node fails with the `ValueError` message
`"Only PDF and DOCX supported."` for every file path ending in neither
`.pdf` nor `.docx` — producing no updated state, so `original_text` is
left unchanged — and on a successful load it returns the input state
with `original_text` set to the loader's page contents joined with
`"\n\n"`. -/
theorem c7_load_unsupported_format (loadPdf loadDocx : Str → Except Str (List Str))
    (st : ComplianceState) :
    (endswith st.file_path pdfExt = false → endswith st.file_path docxExt = false →
      load_document_node loadPdf loadDocx st = .error unsupportedMsg) ∧
    (∀ docs, endswith st.file_path pdfExt = true → loadPdf st.file_path = .ok docs →
      load_document_node loadPdf loadDocx st =
        .ok { st with original_text := joinSep nl2 docs }) ∧
    (∀ docs, endswith st.file_path pdfExt = false → endswith st.file_path docxExt = true →
      loadDocx st.file_path = .ok docs →
      load_document_node loadPdf loadDocx st =
        .ok { st with original_text := joinSep nl2 docs }) := by
  refine ⟨?_, ?_, ?_⟩
  · intro h1 h2
    simp [load_document_node, h1, h2]
  · intro docs h1 hl
    simp [load_document_node, h1, hl]
  · intro docs h1 h2 hl
    simp [load_document_node, h1, h2, hl]

theorem c7_load_unsupported_format_witness :
    (endswith (( "temp_uploads/abc_doc.txt").toList) pdfExt = false ∧
      endswith (( "temp_uploads/abc_doc.txt").toList) docxExt = false ∧
      load_document_node sampleLoad sampleLoad
        (ComplianceState.init ( "temp_uploads/abc_doc.txt").toList) = .error unsupportedMsg) ∧
    load_document_node sampleLoad sampleLoad
        (ComplianceState.init ( "temp_uploads/abc_doc.pdf").toList) =
      .ok { ComplianceState.init ( "temp_uploads/abc_doc.pdf").toList with
              original_text := joinSep nl2 [( "Hello there.").toList] } :=
  ⟨⟨by decide, by decide,
      (c7_load_unsupported_format sampleLoad sampleLoad
        (ComplianceState.init ( "temp_uploads/abc_doc.txt").toList)).1 (by decide) (by decide)⟩,
    (c7_load_unsupported_format sampleLoad sampleLoad
      (ComplianceState.init ( "temp_uploads/abc_doc.pdf").toList)).2.1
      [( "Hello there.").toList] (by decide) rfl⟩

theorem getD_map_strip (ys : List Str) (i : Nat) (h : i < ys.length) :
    (ys.map strip).getD i [] = strip (ys.getD i []) := by
  rw [List.getD_eq_getElem?_getD, List.getD_eq_getElem?_getD, List.getElem?_map,
    List.getElem?_eq_getElem h]
  rfl

/-- C9: after a successful Correct stage every corrected chunk is the
stripped text-service response for the corresponding stored chunk — so
no corrected chunk carries leading or trailing whitespace — and the
final corrected document is exactly the corrected chunks joined with
`"\n\n"`. -/
theorem c9_corrected_chunks_stripped (svc : Str → Except Str Str)
    (writeDoc : Str → Str → Except Str Unit) (job job2 : Job) (st : ComplianceState)
    (hst : job.state = some st)
    (hrun : process_document_correction svc writeDoc job = job2)
    (hok : job2.status = .correction_complete) :
    ∃ ys, mapE (fun c => svc (correctPrompt c)) st.chunks = .ok ys ∧
      job2.corrected_chunks = ys.map strip ∧
      (∀ c ∈ job2.corrected_chunks, strip c = c) ∧
      job2.final_corrected_doc = joinSep nl2 job2.corrected_chunks := by
  subst hrun
  cases hw : runCorrectionWorkflow svc writeDoc st with
  | error e =>
    rw [process_document_correction] at hok
    simp only [hst, hw] at hok
    simp at hok
  | ok st1 =>
    have hred : process_document_correction svc writeDoc job =
        { job with
          corrected_chunks := st1.corrected_chunks
          final_corrected_doc := st1.final_corrected_doc
          output_path := st1.output_path
          state := some st1
          status := .correction_complete } := by
      rw [process_document_correction]
      simp only [hst, hw]
    rw [hred]
    rw [runCorrectionWorkflow] at hw
    cases hcn : correct_document_node svc st with
    | error e =>
      simp only [hcn] at hw
      exact absurd hw (by simp)
    | ok st' =>
      simp only [hcn] at hw
      rw [correct_document_node] at hcn
      cases hm : mapE (fun c => svc (correctPrompt c)) st.chunks with
      | error e =>
        simp only [hm] at hcn
        exact absurd hcn (by simp)
      | ok ys =>
        simp only [hm, Except.ok.injEq] at hcn
        subst hcn
        simp only [save_corrected_doc_node] at hw
        cases hwd : writeDoc (joinSep nl2 (List.map strip ys)) (outputPathFor st.file_path) with
        | error e =>
          simp only [hwd] at hw
          exact absurd hw (by simp)
        | ok u =>
          simp only [hwd, Except.ok.injEq] at hw
          subst hw
          refine ⟨ys, rfl, by simp, ?_, by simp⟩
          intro c hc
          simp only [] at hc
          obtain ⟨y, _, rfl⟩ := List.mem_map.mp (by simpa using hc)
          exact strip_strip y

/-- Decomposition of a successful Check-stage run: the stored state
holds the chunks whose per-chunk analysis produced exactly the stored
reports, and the job's top-level `chunks`/`compliance_reports` mirror
that state; the `error` field is left untouched. -/
theorem process_compliance_check_ok (loadPdf loadDocx : Str → Except Str (List Str))
    (svc : Str → Except Str Str) (job : Job)
    (hok : (process_compliance_check loadPdf loadDocx svc job).status = .compliance_complete) :
    ∃ st : ComplianceState,
      (process_compliance_check loadPdf loadDocx svc job).state = some st ∧
      (process_compliance_check loadPdf loadDocx svc job).chunks = st.chunks ∧
      (process_compliance_check loadPdf loadDocx svc job).compliance_reports =
        st.compliance_reports ∧
      (process_compliance_check loadPdf loadDocx svc job).error = job.error ∧
      mapE (fun c => svc (checkPrompt c)) st.chunks = .ok st.compliance_reports := by
  cases hw : runComplianceWorkflow loadPdf loadDocx svc (ComplianceState.init job.file_path) with
  | error e =>
    rw [process_compliance_check] at hok
    simp only [hw] at hok
    simp at hok
  | ok st =>
    have hred : process_compliance_check loadPdf loadDocx svc job =
        { job with
          compliance_reports := st.compliance_reports
          chunks := st.chunks
          original_text := st.original_text
          state := some st
          status := .compliance_complete } := by
      rw [process_compliance_check]
      simp only [hw]
    refine ⟨st, by rw [hred], by rw [hred], by rw [hred], by rw [hred], ?_⟩
    rw [runComplianceWorkflow] at hw
    cases hld : load_document_node loadPdf loadDocx (ComplianceState.init job.file_path) with
    | error e =>
      simp only [hld] at hw
      exact absurd hw (by simp)
    | ok st0 =>
      simp only [hld] at hw
      rw [compliance_check_node] at hw
      cases hmE : mapE (fun c => svc (checkPrompt c)) (chunk_text_node st0).chunks with
      | error e =>
        simp only [hmE] at hw
        exact absurd hw (by simp)
      | ok reports =>
        simp only [hmE, Except.ok.injEq] at hw
        subst hw
        exact hmE

/-- Decomposition of a successful Correct-stage run: the corrected
chunks are the stripped per-chunk rewrites of the stored state's chunk
list, the final document is their join, and the job's `chunks` and
`compliance_reports` are left untouched. -/
theorem process_document_correction_ok (svc : Str → Except Str Str)
    (writeDoc : Str → Str → Except Str Unit) (job : Job) (st : ComplianceState)
    (hst : job.state = some st)
    (hok : (process_document_correction svc writeDoc job).status = .correction_complete) :
    ∃ ys, mapE (fun c => svc (correctPrompt c)) st.chunks = .ok ys ∧
      (process_document_correction svc writeDoc job).corrected_chunks = ys.map strip ∧
      (process_document_correction svc writeDoc job).final_corrected_doc =
        joinSep nl2 (ys.map strip) ∧
      (process_document_correction svc writeDoc job).chunks = job.chunks ∧
      (process_document_correction svc writeDoc job).compliance_reports =
        job.compliance_reports := by
  cases hw : runCorrectionWorkflow svc writeDoc st with
  | error e =>
    rw [process_document_correction] at hok
    simp only [hst, hw] at hok
    simp at hok
  | ok st1 =>
    have hred : process_document_correction svc writeDoc job =
        { job with
          corrected_chunks := st1.corrected_chunks
          final_corrected_doc := st1.final_corrected_doc
          output_path := st1.output_path
          state := some st1
          status := .correction_complete } := by
      rw [process_document_correction]
      simp only [hst, hw]
    rw [runCorrectionWorkflow] at hw
    cases hcn : correct_document_node svc st with
    | error e =>
      simp only [hcn] at hw
      exact absurd hw (by simp)
    | ok st' =>
      simp only [hcn] at hw
      rw [correct_document_node] at hcn
      cases hm : mapE (fun c => svc (correctPrompt c)) st.chunks with
      | error e =>
        simp only [hm] at hcn
        exact absurd hcn (by simp)
      | ok ys =>
        simp only [hm, Except.ok.injEq] at hcn
        subst hcn
        simp only [save_corrected_doc_node] at hw
        cases hwd : writeDoc (joinSep nl2 (List.map strip ys)) (outputPathFor st.file_path) with
        | error e =>
          simp only [hwd] at hw
          exact absurd hw (by simp)
        | ok u =>
          simp only [hwd, Except.ok.injEq] at hw
          subst hw
          exact ⟨ys, rfl, by rw [hred], by rw [hred], by rw [hred], by rw [hred]⟩

/-- C1: once the Check stage and then the Correct stage have both
completed successfully, `chunks`, `compliance_reports` and
`corrected_chunks` have equal length; report `i` is the text-service
answer to the analysis prompt for chunk `i`, and corrected chunk `i` is
the stripped text-service answer to the correction prompt for the same
chunk `i`; the Correct stage maps over the chunk sequence stored by the
Check stage and leaves it untouched — it never re-splits the raw
text. -/
theorem c1_check_correct_correspondence
    (loadPdf loadDocx : Str → Except Str (List Str))
    (svcC svcR : Str → Except Str Str) (writeDoc : Str → Str → Except Str Unit)
    (job job1 job2 : Job)
    (h1 : process_compliance_check loadPdf loadDocx svcC job = job1)
    (h2 : job1.status = .compliance_complete)
    (h3 : process_document_correction svcR writeDoc job1 = job2)
    (h4 : job2.status = .correction_complete) :
    job2.chunks = job1.chunks ∧
    job2.compliance_reports.length = job2.chunks.length ∧
    job2.corrected_chunks.length = job2.chunks.length ∧
    mapE (fun c => svcC (checkPrompt c)) job2.chunks = .ok job2.compliance_reports ∧
    (∀ i, i < job2.chunks.length →
      svcC (checkPrompt (job2.chunks.getD i [])) = .ok (job2.compliance_reports.getD i []) ∧
      ∃ y, svcR (correctPrompt (job2.chunks.getD i [])) = .ok y ∧
        job2.corrected_chunks.getD i [] = strip y) := by
  subst h1
  subst h3
  obtain ⟨st, hstate, hchunks, hreps, _herr, hmE⟩ :=
    process_compliance_check_ok loadPdf loadDocx svcC job h2
  obtain ⟨ys, hys, hcorr, _hfin, hch2, hrep2⟩ :=
    process_document_correction_ok svcR writeDoc _ st hstate h4
  have hchunks2 : (process_document_correction svcR writeDoc
      (process_compliance_check loadPdf loadDocx svcC job)).chunks = st.chunks := by
    rw [hch2, hchunks]
  have hlenR : st.compliance_reports.length = st.chunks.length := mapE_ok_length hmE
  have hlenY : ys.length = st.chunks.length := mapE_ok_length hys
  refine ⟨by rw [hch2], ?_, ?_, ?_, ?_⟩
  · rw [hchunks2, hrep2, hreps, hlenR]
  · rw [hchunks2, hcorr]
    simp [hlenY]
  · rw [hchunks2, hrep2, hreps]
    exact hmE
  · intro i hi
    rw [hchunks2] at hi
    constructor
    · rw [hchunks2, hrep2, hreps]
      exact mapE_ok_getD hmE i hi
    · refine ⟨ys.getD i [], ?_, ?_⟩
      · rw [hchunks2]
        exact mapE_ok_getD hys i hi
      · rw [hcorr]
        exact getD_map_strip ys i (by omega)

/-- C10: whenever a job's `error` field holds a non-empty message, the
status endpoint reports that message regardless of the current status;
and since a successful re-run of the Check stage never clears the
`error` field, a job that failed once and was then successfully
re-checked still reports the stale error message even though its status
is `compliance_complete`. -/
theorem c10_error_sticky_status (loadPdf loadDocx : Str → Except Str (List Str))
    (svc : Str → Except Str Str) (j : Job) (e : Str)
    (he : j.error = some e) (hne : e ≠ []) :
    (get_status j).message = some (errMsgFor e) ∧
    (∀ job2, process_compliance_check loadPdf loadDocx svc j = job2 →
      job2.status = .compliance_complete →
      job2.error = some e ∧ (get_status job2).message = some (errMsgFor e)) := by
  have htruthy : errTruthy (some e) = true := by
    simp [errTruthy, List.isEmpty_eq_false, hne]
  constructor
  · simp [get_status, he, htruthy]
  · intro job2 hrun hok
    subst hrun
    obtain ⟨st, _hstate, _hchunks, _hreps, herr, _hmE⟩ :=
      process_compliance_check_ok loadPdf loadDocx svc j hok
    have herr2 : (process_compliance_check loadPdf loadDocx svc j).error = some e := by
      rw [herr, he]
    refine ⟨herr2, ?_⟩
    simp [get_status, herr2, htruthy]

theorem c1_check_correct_correspondence_witness :
    ((process_compliance_check sampleLoad sampleLoad sampleSvc sampleJob).status =
        JobStatus.compliance_complete ∧
      (process_document_correction sampleSvc sampleWrite
          (process_compliance_check sampleLoad sampleLoad sampleSvc sampleJob)).status =
        JobStatus.correction_complete) ∧
    (process_document_correction sampleSvc sampleWrite
        (process_compliance_check sampleLoad sampleLoad sampleSvc sampleJob)).chunks =
      (process_compliance_check sampleLoad sampleLoad sampleSvc sampleJob).chunks ∧
    (process_document_correction sampleSvc sampleWrite
        (process_compliance_check sampleLoad sampleLoad sampleSvc sampleJob)).compliance_reports.length =
      (process_document_correction sampleSvc sampleWrite
        (process_compliance_check sampleLoad sampleLoad sampleSvc sampleJob)).chunks.length := by
  have h := c1_check_correct_correspondence sampleLoad sampleLoad sampleSvc sampleSvc
    sampleWrite sampleJob _ _ rfl (by decide) rfl (by decide)
  exact ⟨⟨by decide, by decide⟩, h.1, h.2.1⟩

theorem c9_corrected_chunks_stripped_witness :
    jobWithState.state = some sampleState ∧
    (process_document_correction sampleSvc sampleWrite jobWithState).status =
      JobStatus.correction_complete ∧
    ∃ ys, mapE (fun c => sampleSvc (correctPrompt c)) sampleState.chunks = .ok ys ∧
      (process_document_correction sampleSvc sampleWrite jobWithState).corrected_chunks =
        ys.map strip ∧
      (∀ c ∈ (process_document_correction sampleSvc sampleWrite jobWithState).corrected_chunks,
        strip c = c) ∧
      (process_document_correction sampleSvc sampleWrite jobWithState).final_corrected_doc =
        joinSep nl2
          (process_document_correction sampleSvc sampleWrite jobWithState).corrected_chunks := by
  refine ⟨rfl, by decide, ?_⟩
  exact c9_corrected_chunks_stripped sampleSvc sampleWrite jobWithState _ sampleState
    rfl rfl (by decide)

theorem c10_error_sticky_status_witness :
    jobErrored.error = some ( "boom").toList ∧
    (process_compliance_check sampleLoad sampleLoad sampleSvc jobErrored).status =
      JobStatus.compliance_complete ∧
    (process_compliance_check sampleLoad sampleLoad sampleSvc jobErrored).error =
      some ( "boom").toList ∧
    (get_status (process_compliance_check sampleLoad sampleLoad sampleSvc jobErrored)).message =
      some (errMsgFor ( "boom").toList) := by
  have h := c10_error_sticky_status sampleLoad sampleLoad sampleSvc jobErrored
    ( "boom").toList rfl (by decide)
  have h2 := h.2 _ rfl (by decide)
  exact ⟨rfl, by decide, h2.1, h2.2⟩
